import Mathlib

/-!
# Verification of the tree reducer of `en-croissant` (src/utils/treeReducer.ts)

Shallow embedding of the branching game-tree data model and its action
dispatcher.  TypeScript objects become Lean structures, in-place mutation
becomes functional update at a resolved path, and the two places where the
JavaScript code can dereference `undefined` (and hence throw a `TypeError`)
are modelled with `Except String`.

External collaborators that are not part of the provided sources are either
abstracted as function parameters (the chess-rule validator from `chess.js`,
the score classifier `getAnnotation` from `src/utils/score.ts`) or modelled
from the specification (`isPrefix` from `src/utils/misc.ts`).
-/

namespace EnCroissant

/-- Modelled from the spec: the rule-validation collaborator's canonical move
(`Move` from chess.js).  Only the `san` field is consulted by
`treeReducer.ts` (transposition dedup in `makeMove` compares `move?.san`),
so the embedding keeps just that field. -/
structure Move where
  san : String
deriving DecidableEq, Repr

/-- Modelled from the spec: `Score` from `src/utils/score.ts` (not among the
provided sources): a tagged centipawn/mate value. -/
inductive ScoreType where
  | cp
  | mate
deriving DecidableEq, Repr

structure Score where
  type : ScoreType
  value : Int
deriving DecidableEq, Repr

/-- Modelled from the spec: the symbolic quality marker `Annotation` from
`src/utils/chess.ts` (not among the provided sources); only `None` is used
by `treeReducer.ts` itself. -/
inductive Annot where
  | None
  | Good
  | Brilliant
  | Mistake
  | Blunder
  | Dubious
  | Interesting
deriving DecidableEq, Repr

/-- Embeds `DrawShape` from chessground: an origin/destination marker; `brush`
stands in for the attributes that the toggle comparison ignores. `dest` is
optional in chessground, hence `Option`. -/
structure DrawShape where
  orig : String
  dest : Option String
  brush : String
deriving DecidableEq, Repr

/-- Embeds `Outcome` from `src/utils/db.ts`. -/
inductive Outcome where
  | Unknown
  | WhiteWin
  | BlackWin
  | Draw
deriving DecidableEq, Repr

inductive Orientation where
  | white
  | black
deriving DecidableEq, Repr

/-- Embeds `GameHeaders` from `treeReducer.ts`.  `white_elo`/`black_elo` are
`number | null` and optional in TS; both layers of missing-ness collapse to
one `Option`. -/
structure GameHeaders where
  id : Nat
  fen : String
  event : String
  site : String
  date : Option String := none
  time : Option String := none
  round : Option String := none
  white : String
  white_elo : Option Int := none
  black : String
  black_elo : Option Int := none
  result : Outcome
  time_control : Option String := none
  eco : Option String := none
  white_material : Option Nat := none
  black_material : Option Nat := none
  start : Option (List Nat) := none
  orientation : Option Orientation := none
deriving DecidableEq, Repr

/-- The per-node fields of `TreeNode` other than `children`.

The stored shapes are `Option DrawShape` because `setShapes` can push the
JavaScript value `undefined` into the array (empty `SET_SHAPES` batch on a
node with no markers); `none` stands for that `undefined`. -/
structure NodeData where
  fen : String
  move : Option Move
  score : Option Score
  depth : Option Nat
  halfMoves : Nat
  shapes : List (Option DrawShape)
  annot : Annot
  commentHTML : String
  commentText : String
deriving DecidableEq, Repr

/-- Embeds `TreeNode`: one position in the game tree.  A nested inductive: the
scalar fields are grouped in `NodeData`, the recursive `children` list is
kept alongside. -/
inductive TreeNode where
  | mk (data : NodeData) (children : List TreeNode)

mutual

/-- Structural equality test for `TreeNode` (written by hand: `deriving
DecidableEq` does not handle the nested `List`). -/
def TreeNode.beq : TreeNode → TreeNode → Bool
  | .mk d1 c1, .mk d2 c2 => d1 == d2 && TreeNode.beqList c1 c2

def TreeNode.beqList : List TreeNode → List TreeNode → Bool
  | [], [] => true
  | a :: as, b :: bs => TreeNode.beq a b && TreeNode.beqList as bs
  | _, _ => false

end

instance : BEq TreeNode := ⟨TreeNode.beq⟩

mutual

theorem TreeNode.beq_iff : ∀ a b : TreeNode, TreeNode.beq a b = true ↔ a = b
  | .mk d1 c1, .mk d2 c2 => by
    simp only [TreeNode.beq, Bool.and_eq_true, beq_iff_eq, TreeNode.mk.injEq]
    exact and_congr Iff.rfl (TreeNode.beqList_iff c1 c2)

theorem TreeNode.beqList_iff :
    ∀ as bs : List TreeNode, TreeNode.beqList as bs = true ↔ as = bs
  | [], [] => by simp [TreeNode.beqList]
  | [], _ :: _ => by simp [TreeNode.beqList]
  | _ :: _, [] => by simp [TreeNode.beqList]
  | a :: as, b :: bs => by
    simp only [TreeNode.beqList, Bool.and_eq_true, List.cons.injEq]
    exact and_congr (TreeNode.beq_iff a b) (TreeNode.beqList_iff as bs)

end

instance : LawfulBEq TreeNode where
  eq_of_beq h := (TreeNode.beq_iff _ _).mp h
  rfl := (TreeNode.beq_iff _ _).mpr rfl

instance : DecidableEq TreeNode :=
  fun a b => decidable_of_iff _ (TreeNode.beq_iff a b)

def TreeNode.data : TreeNode → NodeData
  | .mk d _ => d

def TreeNode.children : TreeNode → List TreeNode
  | .mk _ c => c

@[simp] theorem TreeNode.data_mk (d : NodeData) (c : List TreeNode) :
    (TreeNode.mk d c).data = d := rfl

@[simp] theorem TreeNode.children_mk (d : NodeData) (c : List TreeNode) :
    (TreeNode.mk d c).children = c := rfl

theorem TreeNode.eta (n : TreeNode) : TreeNode.mk n.data n.children = n := by
  cases n
  rfl

/-- Embeds `TreeState`: one editable tree session. -/
structure TreeState where
  root : TreeNode
  headers : GameHeaders
  position : List Nat
  dirty : Bool
deriving DecidableEq

/-! ## Path addressing -/

/-- Embeds `getNodeAtPath` from `treeReducer.ts` (lines 392–399), for paths of
natural-number indices (the indices the reducer itself produces): walks the
path; as soon as an index is `>=` the children count it stops and returns
the current node, per the source comment "Just return the root in case of
invalid path". -/
def getNodeAtPath : TreeNode → List Nat → TreeNode
  | node, [] => node
  | node, index :: rest =>
    if h : node.children.length ≤ index then node
    else getNodeAtPath (node.children.get ⟨index, by omega⟩) rest

/-- The JavaScript semantics of `getNodeAtPath` for arbitrary integer
indices.  A negative index passes the `index >= node.children.length` test,
so `node.children[index]` is the value `undefined` (modelled `none`); the
recursive call then either returns it (empty remaining path) or evaluates
`undefined.children.length` and throws a `TypeError`. -/
def getNodeAtPathJS : Option TreeNode → List Int → Except String (Option TreeNode)
  | node, [] => .ok node
  | none, _ :: _ => .error "TypeError: Cannot read properties of undefined (reading children)"
  | some node, index :: rest =>
    if (node.children.length : Int) ≤ index then .ok (some node)
    else getNodeAtPathJS (if index < 0 then none else node.children.get? index.toNat) rest

/-- Strict path resolution: `some` exactly when every index of the path is
in range.  This is not a function of the source; it is the observation map
used to state which node a path denotes (the lenient `getNodeAtPath`
conflates distinct paths). -/
def exactResolve : TreeNode → List Nat → Option TreeNode
  | node, [] => some node
  | node, index :: rest =>
    match node.children.get? index with
    | none => none
    | some child => exactResolve child rest

/-- Functional counterpart of the JavaScript in-place mutation of the node
returned by `getNodeAtPath`: applies `f` at exactly the node the lenient
resolution of `path` stops at. -/
def modifyNodeAtPath (node : TreeNode) (path : List Nat) (f : TreeNode → TreeNode) : TreeNode :=
  match path with
  | [] => f node
  | index :: rest =>
    if h : node.children.length ≤ index then f node
    else TreeNode.mk node.data
      (node.children.set index (modifyNodeAtPath (node.children.get ⟨index, by omega⟩) rest f))

/-! ## Node/tree model helpers -/

/-- Embeds `DEFAULT_POSITION` from chess.js (external constant). -/
def DEFAULT_POSITION : String :=
  "rnbqkbnr/pppppppp/8/8/8/8/PPPPPPPP/RNBQKBNR w KQkq - 0 1"

/-- Embeds `defaultTree` from `treeReducer.ts` (lines 54–80). -/
def defaultTree (fen : Option String := none) : TreeState :=
  { dirty := false
    position := []
    root := TreeNode.mk
      { fen := fen.getD DEFAULT_POSITION
        move := none
        score := none
        depth := none
        halfMoves := 0
        shapes := []
        annot := .None
        commentHTML := ""
        commentText := "" } []
    headers :=
      { id := 0
        fen := fen.getD DEFAULT_POSITION
        black := ""
        white := ""
        result := .Unknown
        event := ""
        site := "" } }

/-- Embeds `createNode` from `treeReducer.ts` (lines 82–103). -/
def createNode (fen : String) (move : Move) (halfMoves : Nat) : TreeNode :=
  TreeNode.mk
    { fen := fen
      move := some move
      score := none
      depth := none
      halfMoves := halfMoves
      shapes := []
      annot := .None
      commentHTML := ""
      commentText := "" } []

/-- Embeds `countMainPly` from `treeReducer.ts` (lines 44–52): length of the chain
of first children below `node`. -/
def countMainPly : TreeNode → Nat
  | .mk _ [] => 0
  | .mk _ (c :: _) => countMainPly c + 1

/-- The `endPosition` loop of the `GO_TO_END` reducer case (lines 242–251):
one `0` per mainline ply. -/
def mainlinePath : TreeNode → List Nat
  | .mk _ [] => []
  | .mk _ (c :: _) => 0 :: mainlinePath c

/-- Modelled from the spec: `isPrefix` from `src/utils/misc.ts` is not
among the provided sources.  Per §4.3 ("the deleted path is a prefix of (or
equal to) `current path`") it tests whether the first path is a non-strict
prefix of the second. -/
def isPrefixOf : List Nat → List Nat → Bool
  | [], _ => true
  | _ :: _, [] => false
  | a :: as, b :: bs => a == b && isPrefixOf as bs

/-! ## Traversal -/

theorem sum_map_sizeOf_lt_sizeOf (l : List TreeNode) : (l.map sizeOf).sum < sizeOf l := by
  induction l with
  | nil => simp
  | cons a as ih =>
    simp only [List.map_cons, List.sum_cons, List.cons.sizeOf_spec]
    omega

theorem sizeOf_children_lt (n : TreeNode) : sizeOf n.children < sizeOf n := by
  cases n with
  | mk d c => simp only [TreeNode.children_mk, TreeNode.mk.sizeOf_spec]; omega

/-- The explicit work-list loop of the generator `treeIterator`
(lines 33–42): pop an entry, emit it, push the children (the JS pushes them
in reverse so they pop in ascending order, i.e. they are prepended in
ascending order). -/
def iterLoop : List (List Nat × TreeNode) → List (List Nat × TreeNode)
  | [] => []
  | (position, n) :: rest =>
    (position, n) ::
      iterLoop ((n.children.enum.map fun iv => (position ++ [iv.1], iv.2)) ++ rest)
termination_by stack => (stack.map fun e => sizeOf e.2).sum
decreasing_by
  simp only [List.map_append, List.sum_append, List.map_map, List.map_cons, List.sum_cons]
  have h1 : (n.children.enum.map ((fun e => sizeOf e.2) ∘ fun iv => (position ++ [iv.1], iv.2)))
      = n.children.map sizeOf := by
    have h2 : ((fun e => sizeOf e.2) ∘ fun iv : Nat × TreeNode => (position ++ [iv.1], iv.2))
        = (fun a => sizeOf a) ∘ Prod.snd := rfl
    rw [h2, ← List.map_map, List.enum_map_snd]
  rw [h1]
  have h3 := sum_map_sizeOf_lt_sizeOf n.children
  have h4 := sizeOf_children_lt n
  omega

/-- Embeds `treeIterator` from `treeReducer.ts`: the full emitted sequence of
(path, node) pairs, starting from the root with the empty path. -/
def treeIterator (node : TreeNode) : List (List Nat × TreeNode) :=
  iterLoop [([], node)]

/-! ## Mutation algorithms -/

/-- The `MAKE_MOVE` payload: a structured from/to/promotion triple or an
algebraic-notation string. -/
inductive MoveDesc where
  | str (san : String)
  | obj (src dst : String) (promotion : Option String)
deriving DecidableEq, Repr

/-- The rule-validation collaborator (chess.js, external per spec §6):
given a position encoding and a move descriptor it returns the canonical
move together with the resulting position encoding (`chess.move` followed
by `chess.fen()`), or `none` when `chess.move` throws (illegal move). -/
def Validator : Type :=
  String → MoveDesc → Option (Move × String)

/-- Side to move, as the `"w" | "b"` strings passed to `getAnnotation`. -/
inductive Color where
  | w
  | b
deriving DecidableEq, Repr

/-- The score-classification collaborator `getAnnotation` from
`src/utils/score.ts` (external per spec §6). -/
def Classifier : Type :=
  Score → Score → Color → Annot

/-- Modelled from the spec: the per-ply entry of `MoveAnalysis` from
`src/utils/chess.ts` (not among the provided sources); `treeReducer.ts`
reads only `best.score` and `novelty`. -/
structure BestMoves where
  score : Score
deriving DecidableEq, Repr

structure MoveAnalysis where
  best : BestMoves
  novelty : Bool
deriving DecidableEq, Repr

/-- Embeds `makeMove` from `treeReducer.ts` (lines 333–358).  `getNodeAtPath`
never fails, so the `if (!moveNode) return` guard of the source is dead; an
illegal move (the validator returns `none`, i.e. `chess.move` threw)
returns the state unchanged.  Otherwise the children of the current node
are searched for an entry with the same SAN; on a hit only the position is
extended, on a miss a new node is appended and the position points at it. -/
def makeMove (validate : Validator) (state : TreeState) (mv : MoveDesc) : TreeState :=
  let moveNode := getNodeAtPath state.root state.position
  match validate moveNode.data.fen mv with
  | none => state
  | some (m, newFen) =>
    match moveNode.children.findIdx? (fun n => n.data.move.map Move.san == some m.san) with
    | some i => { state with position := state.position ++ [i] }
    | none =>
      { state with
          root := modifyNodeAtPath state.root state.position fun n =>
            TreeNode.mk n.data
              (n.children ++ [createNode newFen m (moveNode.data.halfMoves + 1)])
          position := state.position ++ [moveNode.children.length] }

/-- Embeds `deleteMove` from `treeReducer.ts` (lines 360–374).  Both `getNodeAtPath`
calls always produce a node, so the two `if (!…) return` guards are dead.
`findIndex` with reference equality is modelled with structural equality
(`==` of the derived lawful `BEq`); when the resolved node is not among the
resolved parent's children, `findIndex` yields `-1` and `splice(-1, 1)`
removes the parent's **last** child (nothing on a childless parent), which
is `List.dropLast`. -/
def deleteMove (state : TreeState) (path : List Nat) : TreeState :=
  let node := getNodeAtPath state.root path
  let root' := modifyNodeAtPath state.root path.dropLast fun parent =>
    TreeNode.mk parent.data
      (match parent.children.findIdx? (fun n => n == node) with
       | some i => parent.children.eraseIdx i
       | none => parent.children.dropLast)
  let position' :=
    if isPrefixOf path state.position then
      path.dropLast
    else if isPrefixOf path.dropLast state.position then
      if state.position.length = path.length then
        state.position.set (state.position.length - 1) 0
      else state.position
    else state.position
  { state with root := root', position := position' }

/-- The `reduceRight` of `promoteVariation` (lines 378–381): fold the
enumerated path from the right with accumulator `(v, i)`, starting from
`[0, 0]`, keeping the accumulator on zero entries and replacing it on
nonzero ones.  Because the fold runs right-to-left and every nonzero entry
**overwrites** the accumulator, the result is the value/index of the
*first* (shallowest) nonzero entry of the path, despite the source comment
"get last element different from 0". -/
def promoteTarget (path : List Nat) : Nat × Nat :=
  path.enum.foldr (fun iv acc => if iv.2 = 0 then acc else (iv.2, iv.1)) (0, 0)

/-- Embeds `promoteVariation` from `treeReducer.ts` (lines 376–390).  When the
fold's index is `0` (no nonzero entry found, or the shallowest nonzero
entry sits at position 0 of the path) the state is returned unchanged.
Otherwise the child at index `v` of the node at the truncated path is
unshifted to the front and the promoted position in the path is rewritten
to 0.  If `v` is out of range, `splice(v, 1)` removes nothing and
`unshift(undefined)` corrupts the children array (a later `children` access
on it throws), modelled as an error. -/
def promoteVariation (state : TreeState) (path : List Nat) : Except String TreeState :=
  let vi := promoteTarget path
  if vi.2 = 0 then .ok state
  else
    let promotablePath := path.take vi.2
    let path' := path.set vi.2 0
    if promotablePath.length = 0 then .ok state
    else
      let node := getNodeAtPath state.root promotablePath
      match node.children.get? vi.1 with
      | none => .error "unshift of undefined child"
      | some _ =>
        .ok { state with
                root := modifyNodeAtPath state.root promotablePath fun n =>
                  match n.children.get? vi.1 with
                  | none => n
                  | some c => TreeNode.mk n.data (c :: n.children.eraseIdx vi.1)
                position := path' }

/-- The walking loop of `addAnalysis` (lines 401–420), with the previous
ply's score and the ply index carried as accumulators: `prevScore` starts
as the neutral `{ type: "cp", value: 0 }` and becomes the current entry's
score for the next ply; the side to move alternates with the parity of the
ply index.  The walk stops when either the analysis entries or the chain of
first children is exhausted. -/
def addAnalysisGo (classify : Classifier) (prevScore : Score) (i : Nat) :
    List MoveAnalysis → TreeNode → TreeNode
  | [], node => node
  | a :: rest, .mk data children =>
    let curScore := a.best.score
    let color := if i % 2 = 0 then Color.w else Color.b
    let data' :=
      { data with
          score := some curScore
          commentHTML := if a.novelty then "Novelty" else data.commentHTML
          commentText := if a.novelty then "Novelty" else data.commentText
          annot := classify prevScore curScore color }
    TreeNode.mk data'
      (match children with
       | [] => []
       | c :: cs => addAnalysisGo classify curScore (i + 1) rest c :: cs)

/-- Embeds `addAnalysis` from `treeReducer.ts` (lines 401–420): the walk starts at
`state.root.children[0]` (the root itself receives no analysis). -/
def addAnalysis (classify : Classifier) (state : TreeState)
    (analysis : List MoveAnalysis) : TreeState :=
  { state with
      root := TreeNode.mk state.root.data
        (match state.root.children with
         | [] => []
         | c :: cs => addAnalysisGo classify ⟨.cp, 0⟩ 0 analysis c :: cs) }

/-- The `findIndex` of `setShapes` (lines 426–428) with its JavaScript
evaluation semantics: the callback compares `s.orig === shape.orig &&
s.dest === shape.dest`, which throws a `TypeError` as soon as either the
stored element or the first batch element is `undefined` (`none`). -/
def findShapeIdxAux (shape : Option DrawShape) :
    List (Option DrawShape) → Nat → Except String (Option Nat)
  | [], _ => .ok none
  | s :: rest, i =>
    match s, shape with
    | some sd, some d =>
      if sd.orig = d.orig ∧ sd.dest = d.dest then .ok (some i)
      else findShapeIdxAux shape rest (i + 1)
    | _, _ => .error "TypeError: Cannot read properties of undefined (reading orig)"

/-- Embeds `setShapes` from `treeReducer.ts` (lines 422–435): only the first batch
element (`shapes[0]`, i.e. `head?`; `undefined` on an empty batch) is
considered; an existing marker with the same origin/destination is spliced
out, otherwise the first batch element is pushed (pushing `undefined` when
the batch is empty and the node has no markers). -/
def setShapes (state : TreeState) (shapes : List DrawShape) : Except String TreeState :=
  let node := getNodeAtPath state.root state.position
  let shape : Option DrawShape := shapes.head?
  match findShapeIdxAux shape node.data.shapes 0 with
  | .error e => .error e
  | .ok (some i) =>
    .ok { state with
            root := modifyNodeAtPath state.root state.position fun n =>
              TreeNode.mk { n.data with shapes := n.data.shapes.eraseIdx i } n.children }
  | .ok none =>
    .ok { state with
            root := modifyNodeAtPath state.root state.position fun n =>
              TreeNode.mk { n.data with shapes := n.data.shapes ++ [shape] } n.children }

/-- The toggle-identity test of `setShapes` as a boolean predicate on a
stored marker: true exactly when the stored marker is defined and shares
origin and destination with `d` (the comparison the `findIndex` callback
makes when it does not throw). -/
def shapeMatch (d : DrawShape) : Option DrawShape → Bool
  | some s => decide (s.orig = d.orig ∧ s.dest = d.dest)
  | none => false

/-! ## Action dispatcher -/

/-- Embeds `TreeAction` from `treeReducer.ts` (lines 164–195).  The source
constructor `SET_ANNOTATION` is spelled `SET_ANNOT` here (as the
`Annotation` type is spelled `Annot`); `SET_COMMENT`'s payload object
`{html, text}` is the two string arguments. -/
inductive TreeAction where
  | SAVE
  | SET_STATE (payload : TreeState)
  | RESET
  | SET_HEADERS (payload : GameHeaders)
  | SET_ORIENTATION (payload : Orientation)
  | SET_START (payload : List Nat)
  | MAKE_MOVE (payload : MoveDesc)
  | MAKE_MOVES (payload : List String)
  | GO_TO_START
  | GO_TO_END
  | GO_TO_NEXT
  | GO_TO_PREVIOUS
  | GO_TO_MOVE (payload : List Nat)
  | DELETE_MOVE (payload : Option (List Nat))
  | SET_ANNOT (payload : Annot)
  | SET_COMMENT (html text : String)
  | SET_FEN (payload : String)
  | SET_SCORE (payload : Score)
  | SET_OUTCOME (payload : Outcome)
  | SET_SHAPES (payload : List DrawShape)
  | ADD_ANALYSIS (payload : List MoveAnalysis)
  | PROMOTE_VARIATION (payload : List Nat)
deriving DecidableEq

/-- Embeds `treeReducer` (lines 197–331).  The reducer runs as an immer
producer: a case that only mutates the draft yields the mutated state,
while `SET_STATE` and `RESET` return a brand-new state and the mutations
they made to the draft beforehand (`state.dirty = false` resp. `= true`)
land on the discarded old state.  `SET_OUTCOME` has no case in the switch,
so it is a no-op.  `DELETE_MOVE`'s `action.payload || state.position`
defaults only a missing payload (an empty array is truthy).  The only
actions that can throw are `SET_SHAPES` and `PROMOTE_VARIATION` (see
`setShapes` and `promoteVariation`); every other case is total. -/
def treeReducer (validate : Validator) (classify : Classifier)
    (state : TreeState) (action : TreeAction) : Except String TreeState :=
  match action with
  | .SET_STATE payload => .ok payload
  | .SAVE => .ok { state with dirty := false }
  | .RESET => .ok (defaultTree none)
  | .SET_HEADERS payload => .ok { state with dirty := true, headers := payload }
  | .SET_ORIENTATION payload =>
    .ok { state with dirty := true
                     headers := { state.headers with orientation := some payload } }
  | .SET_START payload =>
    .ok { state with dirty := true
                     headers := { state.headers with start := some payload } }
  | .MAKE_MOVE payload => .ok (makeMove validate { state with dirty := true } payload)
  | .MAKE_MOVES payload =>
    .ok (payload.foldl (fun st mv => makeMove validate st (.str mv))
      { state with dirty := true })
  | .GO_TO_START => .ok { state with position := [] }
  | .GO_TO_END => .ok { state with position := mainlinePath state.root }
  | .GO_TO_NEXT =>
    let node := getNodeAtPath state.root state.position
    .ok (if node.children.length > 0 then { state with position := state.position ++ [0] }
         else state)
  | .GO_TO_PREVIOUS =>
    .ok (if state.position.length ≠ 0 then { state with position := state.position.dropLast }
         else state)
  | .GO_TO_MOVE payload => .ok { state with position := payload }
  | .DELETE_MOVE payload =>
    .ok (deleteMove { state with dirty := true } (payload.getD state.position))
  | .SET_ANNOT payload =>
    .ok { state with dirty := true
                     root := modifyNodeAtPath state.root state.position fun n =>
                       TreeNode.mk
                         { n.data with
                             annot := if n.data.annot = payload then .None else payload }
                         n.children }
  | .SET_COMMENT html text =>
    .ok { state with dirty := true
                     root := modifyNodeAtPath state.root state.position fun n =>
                       TreeNode.mk
                         { n.data with commentHTML := html, commentText := text }
                         n.children }
  | .SET_FEN payload =>
    .ok { state with dirty := true, root := (defaultTree (some payload)).root, position := [] }
  | .SET_SCORE payload =>
    .ok { state with dirty := true
                     root := modifyNodeAtPath state.root state.position fun n =>
                       TreeNode.mk { n.data with score := some payload } n.children }
  | .SET_OUTCOME _ => .ok state
  | .ADD_ANALYSIS payload => .ok (addAnalysis classify { state with dirty := true } payload)
  | .SET_SHAPES payload => setShapes { state with dirty := true } payload
  | .PROMOTE_VARIATION payload => promoteVariation { state with dirty := true } payload

/-! ## Concrete fixtures

A small tree following spec §8 scenario 3: root → child A ("e4") → a
grandchild ("e5"), and root → child B ("d4"), so `root.children = [A, B]`;
plus trivial instantiations of the two external collaborators. -/

def sampleData (f : String) : NodeData :=
  { fen := f
    move := some ⟨f⟩
    score := none
    depth := none
    halfMoves := 1
    shapes := []
    annot := .None
    commentHTML := ""
    commentText := "" }

def grandchildE5 : TreeNode := .mk (sampleData "e5") []

def childA : TreeNode := .mk (sampleData "e4") [grandchildE5]

def childB : TreeNode := .mk (sampleData "d4") []

def sampleRoot : TreeNode := .mk (sampleData "start") [childA, childB]

def sampleState : TreeState :=
  { root := sampleRoot
    headers := (defaultTree none).headers
    position := []
    dirty := false }

/-- A state whose root carries one board marker (used for the `SET_SHAPES`
failure cases). -/
def markedState : TreeState :=
  { root := .mk { sampleData "start" with shapes := [some ⟨"e2", some "e4", "green"⟩] } []
    headers := (defaultTree none).headers
    position := []
    dirty := false }

/-- A validator that rejects every move. -/
def rejectAll : Validator := fun _ _ => none

/-- A classifier that returns no quality marker. -/
def classifyNone : Classifier := fun _ _ _ => .None

/-- A one-entry analysis batch flagged as a novelty. -/
def sampleAnalysis : List MoveAnalysis :=
  [{ best := ⟨⟨.cp, 30⟩⟩, novelty := true }]

/-! ## General lemmas -/

theorem self_not_mem_children {c n : TreeNode} (h : c ∈ n.children) : c ≠ n := by
  intro e
  have h1 := List.sizeOf_lt_of_mem h
  have h2 := sizeOf_children_lt n
  rw [e] at h1
  omega

theorem findIdx_self_children_eq_none (n : TreeNode) :
    n.children.findIdx? (fun c => c == n) = none := by
  refine List.findIdx?_eq_none_iff.mpr fun x hx => ?_
  have := self_not_mem_children hx
  simpa using this

theorem lt_length_of_get?_eq_some {l : List TreeNode} {i : Nat} {c : TreeNode}
    (h : l.get? i = some c) : i < l.length := by
  by_contra hge
  rw [List.get?_eq_none.mpr (by omega)] at h
  cases h

theorem getNodeAtPath_cons_ge {n : TreeNode} {i : Nat} (rest : List Nat)
    (h : n.children.length ≤ i) : getNodeAtPath n (i :: rest) = n := by
  unfold getNodeAtPath
  rw [dif_pos h]

theorem getNodeAtPath_cons_of_get? {n c : TreeNode} {i : Nat}
    (hc : n.children.get? i = some c) (rest : List Nat) :
    getNodeAtPath n (i :: rest) = getNodeAtPath c rest := by
  have hlt := lt_length_of_get?_eq_some hc
  unfold getNodeAtPath
  rw [dif_neg (by omega)]
  have : n.children.get ⟨i, hlt⟩ = c := by
    rw [List.get?_eq_get hlt] at hc
    exact Option.some.inj hc
  rw [this]
  cases rest <;> rfl

theorem modifyNodeAtPath_cons_ge {n : TreeNode} {i : Nat} (rest : List Nat)
    (f : TreeNode → TreeNode) (h : n.children.length ≤ i) :
    modifyNodeAtPath n (i :: rest) f = f n := by
  unfold modifyNodeAtPath
  rw [dif_pos h]

theorem modifyNodeAtPath_cons_of_get? {n c : TreeNode} {i : Nat}
    (hc : n.children.get? i = some c) (rest : List Nat) (f : TreeNode → TreeNode) :
    modifyNodeAtPath n (i :: rest) f =
      TreeNode.mk n.data (n.children.set i (modifyNodeAtPath c rest f)) := by
  have hlt := lt_length_of_get?_eq_some hc
  unfold modifyNodeAtPath
  rw [dif_neg (by omega)]
  have : n.children.get ⟨i, hlt⟩ = c := by
    rw [List.get?_eq_get hlt] at hc
    exact Option.some.inj hc
  rw [this]
  cases rest <;> rfl

theorem get?_set_self {l : List TreeNode} {i : Nat} (a : TreeNode) (h : i < l.length) :
    (l.set i a).get? i = some a := by
  rw [List.get?_eq_getElem?]
  simp [List.getElem?_set_self, h]

/-- Lenient resolution agrees with strict resolution on paths that fully
resolve. -/
theorem getNodeAtPath_of_exactResolve :
    ∀ (p : List Nat) (n m : TreeNode), exactResolve n p = some m → getNodeAtPath n p = m := by
  intro p
  induction p with
  | nil => intro n m h; simpa [exactResolve, getNodeAtPath] using h
  | cons i rest ih =>
    intro n m h
    unfold exactResolve at h
    unfold getNodeAtPath
    match hc : n.children.get? i with
    | none => rw [hc] at h; exact absurd h (by simp)
    | some child =>
      rw [hc] at h
      have hlen : i < n.children.length := by
        by_contra hge
        rw [List.get?_eq_none.mpr (by omega)] at hc
        exact absurd hc (by simp)
      rw [dif_neg (by omega)]
      have hch : n.children.get ⟨i, by omega⟩ = child := by
        have := List.get?_eq_get (l := n.children) (n := i) hlen
        rw [this] at hc
        exact Option.some.inj hc
      rw [hch]
      exact ih child m h

theorem exactResolve_append :
    ∀ (p : List Nat) (n m c : TreeNode) (i : Nat), exactResolve n p = some m →
      m.children.get? i = some c → exactResolve n (p ++ [i]) = some c := by
  intro p
  induction p with
  | nil =>
    intro n m c i h hc
    obtain rfl : n = m := Option.some.inj (by simpa [exactResolve] using h)
    simp only [List.nil_append, exactResolve]
    rw [hc]
  | cons j rest ih =>
    intro n m c i h hc
    unfold exactResolve at h
    match hj : n.children.get? j with
    | none => rw [hj] at h; exact absurd h (by simp)
    | some child =>
      rw [hj] at h
      show exactResolve n (j :: (rest ++ [i])) = some c
      unfold exactResolve
      rw [hj]
      exact ih child m c i h hc

/-- Mutating the node that lenient resolution reaches, with a mutation that
does not touch `children`, commutes with resolving the same path. -/
theorem getNodeAtPath_modify (f : TreeNode → TreeNode)
    (hf : ∀ x, TreeNode.children (f x) = x.children) :
    ∀ (p : List Nat) (n : TreeNode),
      getNodeAtPath (modifyNodeAtPath n p f) p = f (getNodeAtPath n p) := by
  intro p
  induction p with
  | nil => intro n; rfl
  | cons i rest ih =>
    intro n
    by_cases h : n.children.length ≤ i
    · rw [modifyNodeAtPath_cons_ge rest f h, getNodeAtPath_cons_ge rest h,
        getNodeAtPath_cons_ge rest (by rw [hf]; exact h)]
    · have hlt : i < n.children.length := by omega
      obtain ⟨c, hc⟩ : ∃ c, n.children.get? i = some c :=
        ⟨_, List.get?_eq_get hlt⟩
      rw [modifyNodeAtPath_cons_of_get? hc rest f, getNodeAtPath_cons_of_get? hc rest]
      have hc2 : (TreeNode.mk n.data
          (n.children.set i (modifyNodeAtPath c rest f))).children.get? i =
            some (modifyNodeAtPath c rest f) := by
        simp only [TreeNode.children_mk]
        exact get?_set_self _ hlt
      rw [getNodeAtPath_cons_of_get? hc2 rest]
      exact ih c

instance exceptDecEq {e a : Type} [DecidableEq e] [DecidableEq a] :
    DecidableEq (Except e a) := fun x y =>
  match x, y with
  | .ok u, .ok v => decidable_of_iff (u = v) (by simp)
  | .error u, .error v => decidable_of_iff (u = v) (by simp)
  | .ok _, .error _ => isFalse (by simp)
  | .error _, .ok _ => isFalse (by simp)

/-! ## Claim theorems -/

/-- C5: after a deletion at path `p` (which always proceeds — lenient
resolution never fails), the current path becomes `p` minus its last index
when `p` is a prefix of (or equal to) the current path; otherwise, when
`p`'s parent is a prefix of the current path and the two paths have equal
length, the trailing index of the current path is reset to 0; in every
other case the current path is unchanged. -/
theorem deleteMove_position_update (st : TreeState) (p : List Nat) :
    (deleteMove st p).position =
      if isPrefixOf p st.position then p.dropLast
      else if isPrefixOf p.dropLast st.position ∧ st.position.length = p.length then
        st.position.set (st.position.length - 1) 0
      else st.position := by
  unfold deleteMove
  by_cases h1 : isPrefixOf p st.position
  · simp [h1]
  · simp only [h1, Bool.false_eq_true, if_false]
    by_cases h2 : isPrefixOf p.dropLast st.position
    · by_cases h3 : st.position.length = p.length
      · simp [h2, h3]
      · simp [h2, h3]
    · simp [h2]

/-- C9 (amended): `SAVE` clears the dirty flag and `RESET` replaces the
state by the default tree, whose dirty flag is false; but `SET_STATE`
returns the payload verbatim (the `state.dirty = false` write lands on the
discarded previous draft), so the resulting dirty flag equals the
payload's. -/
theorem dirty_after_save_reset_set_state (v : Validator) (g : Classifier)
    (st p : TreeState) :
    treeReducer v g st .SAVE = .ok { st with dirty := false } ∧
    treeReducer v g st .RESET = .ok (defaultTree none) ∧
    (defaultTree none).dirty = false ∧
    treeReducer v g st (.SET_STATE p) = .ok p :=
  ⟨rfl, rfl, rfl, rfl⟩

/-- C9, counterexample to the claim as stated: dispatching `SET_STATE` with
a payload whose dirty flag is set yields a state whose dirty flag is still
set, not cleared. -/
theorem set_state_keeps_payload_dirty :
    (treeReducer rejectAll classifyNone sampleState
        (.SET_STATE { sampleState with dirty := true })).map TreeState.dirty ≠
      .ok false := by
  decide

/-- C2 (amended): dispatching `MAKE_MOVE` with a move the rule-validation
collaborator rejects leaves the root, the current path and the headers
unchanged and surfaces no error, but it does change the dirty flag: the
result is exactly the input state with `dirty := true`. -/
theorem make_move_illegal_only_dirty (v : Validator) (g : Classifier)
    (st : TreeState) (mv : MoveDesc)
    (h : v (TreeNode.data (getNodeAtPath st.root st.position)).fen mv = none) :
    treeReducer v g st (.MAKE_MOVE mv) = .ok { st with dirty := true } := by
  have h2 : v (TreeNode.data (getNodeAtPath
      ({ st with dirty := true } : TreeState).root
      ({ st with dirty := true } : TreeState).position)).fen mv = none := h
  simp only [treeReducer, makeMove, h2]

theorem make_move_illegal_only_dirty_witness :
    rejectAll (TreeNode.data (getNodeAtPath sampleState.root sampleState.position)).fen
        (.str "e4") = none ∧
    treeReducer rejectAll classifyNone sampleState (.MAKE_MOVE (.str "e4")) =
      .ok { sampleState with dirty := true } :=
  ⟨rfl, make_move_illegal_only_dirty rejectAll classifyNone sampleState (.str "e4") rfl⟩

/-- C2, counterexample to the claim as stated: on an illegal move the
state is *not* entirely unchanged — the dirty flag flips from false to
true. -/
theorem make_move_illegal_changes_dirty :
    treeReducer rejectAll classifyNone sampleState (.MAKE_MOVE (.str "e4")) ≠
      .ok sampleState := by
  decide

/-- C1: evaluating the code on the spec's own scenario (root.children =
[A, B], promote at path [1]) shows that `PROMOTE_VARIATION` leaves the tree
and the current path unchanged (only the dirty flag is set): the
`reduceRight` accumulator is overwritten right-to-left, so it holds the
*shallowest* nonzero index, and the `i === 0` guard then discards a nonzero
entry sitting at position 0 of the path as "nothing to promote". -/
theorem promote_variation_depth_one_noop :
    treeReducer rejectAll classifyNone sampleState (.PROMOTE_VARIATION [1]) =
      .ok { sampleState with dirty := true } ∧
    sampleState.root.children = [childA, childB] := by
  constructor
  · rfl
  · rfl

/-- C4: two dispatches the code cannot survive: resolving the integer path
`[-1, 0]` throws (`undefined.children`), and dispatching `SET_SHAPES` with
an empty batch on a node that has a marker throws (`undefined.orig`). -/
theorem resolution_and_dispatch_can_throw :
    getNodeAtPathJS (some sampleRoot) [-1, 0] =
      .error "TypeError: Cannot read properties of undefined (reading children)" ∧
    treeReducer rejectAll classifyNone markedState (.SET_SHAPES []) =
      .error "TypeError: Cannot read properties of undefined (reading orig)" :=
  ⟨rfl, rfl⟩

/-- C3 (amended): `DELETE_MOVE` at a single-index path whose index is out
of range is not a no-op: node and parent both resolve leniently to the
root, the identity search over the root's children misses (yielding `-1`),
and `splice(-1, 1)` then removes the root's **last** child (removing
nothing only when the root is childless); the current path is adjusted by
the usual prefix rules applied to the out-of-range path. -/
theorem delete_move_out_of_range (v : Validator) (g : Classifier)
    (st : TreeState) (k : Nat) (h : st.root.children.length ≤ k) :
    treeReducer v g st (.DELETE_MOVE (some [k])) =
      .ok { st with
              dirty := true
              root := TreeNode.mk (TreeNode.data st.root) st.root.children.dropLast
              position :=
                if isPrefixOf [k] st.position then []
                else if st.position.length = 1 then st.position.set 0 0
                else st.position } := by
  unfold treeReducer
  unfold deleteMove
  have hnode : getNodeAtPath st.root [k] = st.root := getNodeAtPath_cons_ge [] h
  have hfind : st.root.children.findIdx? (fun n => n == st.root) = none :=
    findIdx_self_children_eq_none st.root
  simp only [Option.getD_some, hnode, List.dropLast_single, modifyNodeAtPath, hfind]
  by_cases h1 : isPrefixOf [k] st.position
  · simp [h1, isPrefixOf]
  · by_cases h2 : st.position.length = 1
    · simp [h1, h2, isPrefixOf]
    · simp [h1, h2, isPrefixOf]

theorem delete_move_out_of_range_witness :
    sampleState.root.children.length ≤ 5 ∧
    treeReducer rejectAll classifyNone sampleState (.DELETE_MOVE (some [5])) =
      .ok { sampleState with
              dirty := true
              root := TreeNode.mk (TreeNode.data sampleState.root)
                sampleState.root.children.dropLast
              position :=
                if isPrefixOf [5] sampleState.position then []
                else if sampleState.position.length = 1 then sampleState.position.set 0 0
                else sampleState.position } :=
  ⟨by decide,
    delete_move_out_of_range rejectAll classifyNone sampleState 5 (by decide)⟩

/-- C3, counterexample to the claim as stated: deleting at the unresolvable
path `[5]` of a root with two children is not a no-op — a child vanishes. -/
theorem delete_move_out_of_range_not_noop :
    (treeReducer rejectAll classifyNone sampleState (.DELETE_MOVE (some [5]))).map
        (fun s => s.root.children.length) ≠
      .ok sampleState.root.children.length := by
  decide

/-- C10: dispatching `DELETE_MOVE` with the empty path resolves both the
node and its parent to the root; the identity search over the root's own
children yields `-1`, so `splice(-1, 1)` drops the root's last child (and
removes nothing when the root has no children), and the current path is set
to the empty path. -/
theorem delete_move_empty_path (v : Validator) (g : Classifier) (st : TreeState) :
    treeReducer v g st (.DELETE_MOVE (some [])) =
      .ok { st with
              dirty := true
              root := TreeNode.mk (TreeNode.data st.root) st.root.children.dropLast
              position := [] } := by
  unfold treeReducer
  unfold deleteMove
  have hfind : st.root.children.findIdx? (fun n => n == st.root) = none :=
    findIdx_self_children_eq_none st.root
  simp [getNodeAtPath, modifyNodeAtPath, hfind, isPrefixOf]

/-- Work-list invariant for the traversal: if every stacked entry's path
resolves exactly to its node, the same holds for every emitted entry. -/
theorem iterLoop_resolves (root : TreeNode) :
    ∀ (stack : List (List Nat × TreeNode)),
      (∀ e ∈ stack, exactResolve root e.1 = some e.2) →
      ∀ e ∈ iterLoop stack, exactResolve root e.1 = some e.2
  | [], _, e, he => by simp [iterLoop] at he
  | (pos, n) :: rest, H, e, he => by
    rw [iterLoop] at he
    rcases List.mem_cons.mp he with rfl | hmem
    · exact H _ (List.mem_cons_self _ _)
    · refine iterLoop_resolves root _ ?_ e hmem
      intro e' he'
      rcases List.mem_append.mp he' with h1 | h2
      · obtain ⟨iv, hiv, rfl⟩ := List.mem_map.mp h1
        obtain ⟨i, c⟩ := iv
        have hget : n.children.get? i = some c := by
          have := List.mk_mem_enum_iff_getElem?.mp hiv
          simpa [List.get?_eq_getElem?] using this
        exact exactResolve_append pos root n c i (H _ (List.mem_cons_self _ _)) hget
      · exact H _ (List.mem_cons_of_mem _ h2)
termination_by stack => (stack.map fun e => sizeOf e.2).sum
decreasing_by
  simp only [List.map_append, List.sum_append, List.map_map, List.map_cons, List.sum_cons]
  have h1 : (n.children.enum.map ((fun e => sizeOf e.2) ∘ fun iv => (pos ++ [iv.1], iv.2)))
      = n.children.map sizeOf := by
    have h2 : ((fun e => sizeOf e.2) ∘ fun iv : Nat × TreeNode => (pos ++ [iv.1], iv.2))
        = (fun a => sizeOf a) ∘ Prod.snd := rfl
    rw [h2, ← List.map_map, List.enum_map_snd]
  rw [h1]
  have h3 := sum_map_sizeOf_lt_sizeOf n.children
  have h4 := sizeOf_children_lt n
  omega

/-- C6: for every tree and every (path, node) pair yielded by the pre-order
traversal, resolving that exact path from the root returns that same node
(path-addressing round trip). -/
theorem tree_iterator_round_trip (t : TreeNode) (p : List Nat) (n : TreeNode)
    (h : (p, n) ∈ treeIterator t) : getNodeAtPath t p = n := by
  refine getNodeAtPath_of_exactResolve p t n ?_
  refine iterLoop_resolves t [([], t)] ?_ (p, n) h
  intro e he
  rcases List.mem_singleton.mp he with rfl
  rfl

theorem tree_iterator_round_trip_witness :
    (([0], childA) ∈ treeIterator sampleRoot) ∧ getNodeAtPath sampleRoot [0] = childA := by
  have hmem : ([0], childA) ∈ treeIterator sampleRoot := by
    have hstep : treeIterator sampleRoot =
        [([], sampleRoot), ([0], childA), ([0, 0], grandchildE5), ([1], childB)] := by
      simp [treeIterator, iterLoop, sampleRoot, childA, childB, grandchildE5,
        List.enum, List.enumFrom]
    rw [hstep]
    simp
  exact ⟨hmem, tree_iterator_round_trip sampleRoot [0] childA hmem⟩

/-! ### C7: shape toggling -/

theorem findShapeIdxAux_ok (m : DrawShape) :
    ∀ (l : List (Option DrawShape)) (i : Nat), (∀ s ∈ l, s.isSome) →
      findShapeIdxAux (some m) l i = .ok (l.findIdx? (shapeMatch m) i) := by
  intro l
  induction l with
  | nil => intro i _; simp [findShapeIdxAux, List.findIdx?]
  | cons s rest ih =>
    intro i h
    obtain ⟨sd, rfl⟩ := Option.isSome_iff_exists.mp (h s (List.mem_cons_self _ _))
    by_cases hm : sd.orig = m.orig ∧ sd.dest = m.dest
    · simp [findShapeIdxAux, hm, List.findIdx?, shapeMatch]
    · rw [show findShapeIdxAux (some m) (some sd :: rest) i
          = findShapeIdxAux (some m) rest (i + 1) by
            simp [findShapeIdxAux, hm]]
      rw [ih (i + 1) fun x hx => h x (List.mem_cons_of_mem _ hx)]
      have hfalse : shapeMatch m (some sd) = false := by simp [shapeMatch, hm]
      simp [List.findIdx?, hfalse]

theorem setShapes_found (st : TreeState) (m : DrawShape) (i : Nat)
    (hsome : ∀ s ∈ (TreeNode.data (getNodeAtPath st.root st.position)).shapes, s.isSome)
    (hidx : (TreeNode.data (getNodeAtPath st.root st.position)).shapes.findIdx?
        (shapeMatch m) = some i) :
    setShapes st [m] =
      .ok { st with
              root := modifyNodeAtPath st.root st.position fun n =>
                TreeNode.mk { n.data with shapes := n.data.shapes.eraseIdx i } n.children } := by
  simp only [setShapes, List.head?_cons, findShapeIdxAux_ok m _ 0 hsome, hidx]

theorem setShapes_not_found (st : TreeState) (m : DrawShape)
    (hsome : ∀ s ∈ (TreeNode.data (getNodeAtPath st.root st.position)).shapes, s.isSome)
    (hidx : (TreeNode.data (getNodeAtPath st.root st.position)).shapes.findIdx?
        (shapeMatch m) = none) :
    setShapes st [m] =
      .ok { st with
              root := modifyNodeAtPath st.root st.position fun n =>
                TreeNode.mk { n.data with shapes := n.data.shapes ++ [some m] } n.children } := by
  simp only [setShapes, List.head?_cons, findShapeIdxAux_ok m _ 0 hsome, hidx]

theorem findIdx?_append_singleton_of_none {p : Option DrawShape → Bool}
    {l : List (Option DrawShape)} {x : Option DrawShape}
    (hl : l.findIdx? p = none) (hx : p x = true) :
    (l ++ [x]).findIdx? p = some l.length := by
  refine List.findIdx?_eq_some_iff_getElem.mpr ⟨by simp, ?_, ?_⟩
  · rw [List.getElem_append_right (by omega)]
    simpa using hx
  · intro j hj
    have hjl : j < l.length := by simpa using hj
    rw [List.getElem_append_left hjl]
    have hfalse := List.findIdx?_eq_none_iff.mp hl _ (List.getElem_mem hjl)
    simp [hfalse]

theorem perm_getElem_cons_eraseIdx (l : List (Option DrawShape)) (j : Nat)
    (hj : j < l.length) : List.Perm l (l[j] :: l.eraseIdx j) := by
  conv_lhs => rw [← List.take_append_drop j l, List.drop_eq_getElem_cons hj]
  rw [List.eraseIdx_eq_take_drop_succ]
  exact List.perm_middle

/-- C7 (amended): toggling matches an existing marker by its
origin/destination pair only.  Provided the node's stored markers are all
defined, at most one of them matches the toggled marker, and a matching
stored marker is equal to the toggled marker, toggling the marker twice in
succession (as the head of the `SET_SHAPES` batch both times) returns the
node's marker set to its original value up to permutation (the matched
marker moves to the end of the list).  Without the equal-match hypothesis
this fails: the stored marker is removed but the *toggled* marker is pushed
back (see the counterexample). -/
theorem set_shapes_double_toggle (v : Validator) (g : Classifier)
    (st : TreeState) (m : DrawShape)
    (hsome : ∀ s ∈ (TreeNode.data (getNodeAtPath st.root st.position)).shapes, s.isSome)
    (huniq : (TreeNode.data (getNodeAtPath st.root st.position)).shapes.countP
        (shapeMatch m) ≤ 1)
    (heq : ∀ s ∈ (TreeNode.data (getNodeAtPath st.root st.position)).shapes,
        shapeMatch m s → s = some m) :
    ∃ st1 st2,
      treeReducer v g st (.SET_SHAPES [m]) = .ok st1 ∧
      treeReducer v g st1 (.SET_SHAPES [m]) = .ok st2 ∧
      st2.position = st.position ∧
      List.Perm (TreeNode.data (getNodeAtPath st2.root st.position)).shapes
        (TreeNode.data (getNodeAtPath st.root st.position)).shapes := by
  set l0 := (TreeNode.data (getNodeAtPath st.root st.position)).shapes with hl0
  rcases hidx0 : l0.findIdx? (shapeMatch m) with _ | j
  · -- no stored marker matches: push, then remove the pushed copy
    have hs1 := setShapes_not_found { st with dirty := true } m (by exact hsome) (by exact hidx0)
    set fP : TreeNode → TreeNode := fun n =>
      TreeNode.mk { n.data with shapes := n.data.shapes ++ [some m] } n.children with hfP
    set fE : TreeNode → TreeNode := fun n =>
      TreeNode.mk { n.data with shapes := n.data.shapes.eraseIdx l0.length } n.children
      with hfE
    set R1 := modifyNodeAtPath st.root st.position fP with hR1
    have hnode1 : getNodeAtPath R1 st.position = fP (getNodeAtPath st.root st.position) := by
      rw [hR1]
      exact getNodeAtPath_modify fP (fun x => rfl) st.position st.root
    set st1 : TreeState := { st with dirty := true, root := R1 } with hst1
    have hshapes1 : (TreeNode.data (getNodeAtPath st1.root st1.position)).shapes =
        l0 ++ [some m] := by
      rw [show st1.root = R1 from rfl, show st1.position = st.position from rfl, hnode1]
      rfl
    have hsome1 : ∀ s ∈ (TreeNode.data (getNodeAtPath st1.root st1.position)).shapes,
        s.isSome := by
      rw [hshapes1]
      intro s hs
      rcases List.mem_append.mp hs with h1 | h2
      · exact hsome s h1
      · rcases List.mem_singleton.mp h2 with rfl; rfl
    have hmm : shapeMatch m (some m) = true := by simp [shapeMatch]
    have hidx1 : (TreeNode.data (getNodeAtPath st1.root st1.position)).shapes.findIdx?
        (shapeMatch m) = some l0.length := by
      rw [hshapes1]
      exact findIdx?_append_singleton_of_none hidx0 hmm
    have hs2 := setShapes_found st1 m l0.length hsome1 hidx1
    refine ⟨st1, ⟨{ st1 with root := modifyNodeAtPath st1.root st1.position fE },
      ?_, ?_, rfl, ?_⟩⟩
    · simpa only [treeReducer] using hs1
    · have hid : ({ st1 with dirty := true } : TreeState) = st1 := rfl
      rw [show treeReducer v g st1 (.SET_SHAPES [m]) = setShapes st1 [m] by
        simp only [treeReducer, hid]]
      exact hs2
    · show List.Perm (TreeNode.data (getNodeAtPath
          (modifyNodeAtPath st1.root st1.position fE) st.position)).shapes l0
      rw [show st1.position = st.position from rfl, show st1.root = R1 from rfl,
        getNodeAtPath_modify fE (fun x => rfl) st.position R1, hnode1]
      rw [show (TreeNode.data (fE (fP (getNodeAtPath st.root st.position)))).shapes =
          (l0 ++ [some m]).eraseIdx l0.length from rfl]
      rw [show (l0 ++ [some m]).eraseIdx l0.length = l0 by
        simp [List.eraseIdx_append_of_length_le (Nat.le_refl _)]]
  · -- the marker at index j matches; by `heq` it is `some m` itself
    obtain ⟨hj, hpj, _⟩ := List.findIdx?_eq_some_iff_getElem.mp hidx0
    have hlj : l0[j] = some m := heq _ (List.getElem_mem hj) hpj
    have hs1 := setShapes_found { st with dirty := true } m j (by exact hsome) (by exact hidx0)
    set fE : TreeNode → TreeNode := fun n =>
      TreeNode.mk { n.data with shapes := n.data.shapes.eraseIdx j } n.children with hfE
    set fP : TreeNode → TreeNode := fun n =>
      TreeNode.mk { n.data with shapes := n.data.shapes ++ [some m] } n.children with hfP
    set R1 := modifyNodeAtPath st.root st.position fE with hR1
    have hnode1 : getNodeAtPath R1 st.position = fE (getNodeAtPath st.root st.position) := by
      rw [hR1]
      exact getNodeAtPath_modify fE (fun x => rfl) st.position st.root
    set st1 : TreeState := { st with dirty := true, root := R1 } with hst1
    have hshapes1 : (TreeNode.data (getNodeAtPath st1.root st1.position)).shapes =
        l0.eraseIdx j := by
      rw [show st1.root = R1 from rfl, show st1.position = st.position from rfl, hnode1]
      rfl
    have hsome1 : ∀ s ∈ (TreeNode.data (getNodeAtPath st1.root st1.position)).shapes,
        s.isSome := by
      rw [hshapes1]
      intro s hs
      exact hsome s (List.mem_of_mem_eraseIdx hs)
    have hcount0 : (l0.eraseIdx j).countP (shapeMatch m) = 0 := by
      have hc : l0.countP (shapeMatch m) =
          (l0.take j).countP (shapeMatch m) +
            ((l0.drop (j + 1)).countP (shapeMatch m) + 1) := by
        conv_lhs => rw [← List.take_append_drop j l0, List.drop_eq_getElem_cons hj]
        rw [List.countP_append, List.countP_cons_of_pos _ _ hpj]
      rw [List.eraseIdx_eq_take_drop_succ, List.countP_append]
      omega
    have hidx1 : (TreeNode.data (getNodeAtPath st1.root st1.position)).shapes.findIdx?
        (shapeMatch m) = none := by
      rw [hshapes1]
      refine List.findIdx?_eq_none_iff.mpr fun x hx => ?_
      have := List.countP_eq_zero.mp hcount0 x hx
      simpa using this
    have hs2 := setShapes_not_found st1 m hsome1 hidx1
    refine ⟨st1, ⟨{ st1 with root := modifyNodeAtPath st1.root st1.position fP },
      ?_, ?_, rfl, ?_⟩⟩
    · simpa only [treeReducer] using hs1
    · have hid : ({ st1 with dirty := true } : TreeState) = st1 := rfl
      rw [show treeReducer v g st1 (.SET_SHAPES [m]) = setShapes st1 [m] by
        simp only [treeReducer, hid]]
      exact hs2
    · show List.Perm (TreeNode.data (getNodeAtPath
          (modifyNodeAtPath st1.root st1.position fP) st.position)).shapes l0
      rw [show st1.position = st.position from rfl, show st1.root = R1 from rfl,
        getNodeAtPath_modify fP (fun x => rfl) st.position R1, hnode1]
      rw [show (TreeNode.data (fP (fE (getNodeAtPath st.root st.position)))).shapes =
          l0.eraseIdx j ++ [some m] from rfl]
      refine (List.perm_append_singleton _ _).trans ?_
      rw [← hlj]
      exact (perm_getElem_cons_eraseIdx l0 j hj).symm

theorem set_shapes_double_toggle_witness :
    (∀ s ∈ (TreeNode.data (getNodeAtPath sampleState.root sampleState.position)).shapes,
        s.isSome) ∧
    ((TreeNode.data (getNodeAtPath sampleState.root sampleState.position)).shapes.countP
        (shapeMatch ⟨"e2", some "e4", "green"⟩) ≤ 1) ∧
    (∀ s ∈ (TreeNode.data (getNodeAtPath sampleState.root sampleState.position)).shapes,
        shapeMatch ⟨"e2", some "e4", "green"⟩ s → s = some ⟨"e2", some "e4", "green"⟩) ∧
    (∃ st1 st2,
      treeReducer rejectAll classifyNone sampleState
          (.SET_SHAPES [⟨"e2", some "e4", "green"⟩]) = .ok st1 ∧
      treeReducer rejectAll classifyNone st1
          (.SET_SHAPES [⟨"e2", some "e4", "green"⟩]) = .ok st2 ∧
      st2.position = sampleState.position ∧
      List.Perm (TreeNode.data (getNodeAtPath st2.root sampleState.position)).shapes
        (TreeNode.data (getNodeAtPath sampleState.root sampleState.position)).shapes) :=
  ⟨by decide, by decide, by decide,
    set_shapes_double_toggle rejectAll classifyNone sampleState ⟨"e2", some "e4", "green"⟩
      (by decide) (by decide) (by decide)⟩

/-- C7, counterexample to the claim as stated: toggling a marker twice when
a stored marker shares its origin/destination but differs in another
attribute does not restore the original marker set — the stored green
marker is replaced by the toggled red one. -/
theorem set_shapes_double_toggle_not_identity :
    ((treeReducer rejectAll classifyNone markedState
          (.SET_SHAPES [⟨"e2", some "e4", "red"⟩])).bind fun s =>
        treeReducer rejectAll classifyNone s
          (.SET_SHAPES [⟨"e2", some "e4", "red"⟩])).map
        (fun s => (TreeNode.data (getNodeAtPath s.root markedState.position)).shapes) ≠
      .ok (TreeNode.data (getNodeAtPath markedState.root markedState.position)).shapes := by
  decide

/-! ### C8: analysis application -/

theorem exactResolve_nil (n : TreeNode) : exactResolve n [] = some n := rfl

theorem exactResolve_zero_cons (d : NodeData) (c : TreeNode) (cs : List TreeNode)
    (p : List Nat) : exactResolve (TreeNode.mk d (c :: cs)) (0 :: p) = exactResolve c p := by
  simp [exactResolve]

theorem exactResolve_succ_cons (d : NodeData) (c : TreeNode) (cs : List TreeNode)
    (j : Nat) (p : List Nat) :
    exactResolve (TreeNode.mk d (c :: cs)) ((j + 1) :: p) =
      exactResolve (TreeNode.mk d cs) (j :: p) := by
  simp [exactResolve]

theorem exactResolve_nil_children (d : NodeData) (q : Nat) (p : List Nat) :
    exactResolve (TreeNode.mk d []) (q :: p) = none := by
  simp [exactResolve]

theorem exactResolve_cons_data_irrel (d d2 : NodeData) (cs : List TreeNode)
    (q : Nat) (p : List Nat) :
    exactResolve (TreeNode.mk d cs) (q :: p) = exactResolve (TreeNode.mk d2 cs) (q :: p) := by
  simp [exactResolve]

/-- Nodes off the walked prefix of the mainline are untouched by the
analysis walk: any relative path that leaves the all-zero chain, or is at
least as long as the remaining analysis, resolves to a node with the same
data before and after. -/
theorem addAnalysisGo_untouched (g : Classifier) :
    ∀ (rest : List MoveAnalysis) (prev : Score) (i : Nat) (node : TreeNode) (p : List Nat),
      (p ≠ List.replicate p.length 0 ∨ rest.length ≤ p.length) →
      (exactResolve (addAnalysisGo g prev i rest node) p).map TreeNode.data =
        (exactResolve node p).map TreeNode.data := by
  intro rest
  induction rest with
  | nil => intro prev i node p _; rfl
  | cons a rest' ih =>
    intro prev i node p hp
    obtain ⟨d, ch⟩ := node
    match p with
    | [] =>
      rcases hp with h | h
      · exact absurd rfl h
      · simp at h
    | q :: p' =>
      match ch with
      | [] =>
        rw [show addAnalysisGo g prev i (a :: rest') (TreeNode.mk d []) =
            TreeNode.mk
              { d with
                  score := some a.best.score
                  commentHTML := if a.novelty then "Novelty" else d.commentHTML
                  commentText := if a.novelty then "Novelty" else d.commentText
                  annot := g prev a.best.score (if i % 2 = 0 then Color.w else Color.b) }
              [] from rfl]
        rw [exactResolve_nil_children, exactResolve_nil_children]
      | c :: cs =>
        rw [show addAnalysisGo g prev i (a :: rest') (TreeNode.mk d (c :: cs)) =
            TreeNode.mk
              { d with
                  score := some a.best.score
                  commentHTML := if a.novelty then "Novelty" else d.commentHTML
                  commentText := if a.novelty then "Novelty" else d.commentText
                  annot := g prev a.best.score (if i % 2 = 0 then Color.w else Color.b) }
              (addAnalysisGo g a.best.score (i + 1) rest' c :: cs) from rfl]
        match q with
        | 0 =>
          rw [exactResolve_zero_cons, exactResolve_zero_cons]
          refine ih a.best.score (i + 1) c p' ?_
          rcases hp with h | h
          · left
            intro hcontra
            refine h ?_
            rw [List.length_cons, List.replicate_succ]
            exact congrArg (List.cons 0) hcontra
          · right
            simpa using h
        | j + 1 =>
          rw [exactResolve_succ_cons, exactResolve_succ_cons,
            exactResolve_cons_data_irrel _ d cs j p']

/-- The k-th node of the walked mainline prefix receives the k-th analysis
entry: its evaluation becomes the entry's score, its annotation is the
classifier applied to the previous score (the accumulator for the first
step), the current score and the parity color, a novelty entry overwrites
both comment representations, and every other field is kept. -/
theorem addAnalysisGo_touched (g : Classifier) :
    ∀ (rest : List MoveAnalysis) (prev : Score) (i : Nat) (node : TreeNode) (k : Nat)
      (hk : k < rest.length), rest.length ≤ countMainPly node + 1 →
      ∃ old new,
        exactResolve node (List.replicate k 0) = some old ∧
        exactResolve (addAnalysisGo g prev i rest node) (List.replicate k 0) = some new ∧
        (TreeNode.data new).score = some rest[k].best.score ∧
        (TreeNode.data new).annot =
          g (if k = 0 then prev else rest[k - 1].best.score) rest[k].best.score
            (if (i + k) % 2 = 0 then Color.w else Color.b) ∧
        (TreeNode.data new).commentText =
          (if rest[k].novelty then "Novelty" else (TreeNode.data old).commentText) ∧
        (TreeNode.data new).commentHTML =
          (if rest[k].novelty then "Novelty" else (TreeNode.data old).commentHTML) ∧
        (TreeNode.data new).fen = (TreeNode.data old).fen ∧
        (TreeNode.data new).move = (TreeNode.data old).move ∧
        (TreeNode.data new).halfMoves = (TreeNode.data old).halfMoves ∧
        (TreeNode.data new).depth = (TreeNode.data old).depth ∧
        (TreeNode.data new).shapes = (TreeNode.data old).shapes := by
  intro rest
  induction rest with
  | nil => intro prev i node k hk; simp at hk
  | cons a rest' ih =>
    intro prev i node k hk hchain
    obtain ⟨d, ch⟩ := node
    match k with
    | 0 =>
      exact ⟨TreeNode.mk d ch, _, rfl, rfl, rfl, rfl, rfl, rfl, rfl, rfl, rfl, rfl, rfl⟩
    | k' + 1 =>
      have hk' : k' < rest'.length := by simpa using hk
      match ch with
      | [] =>
        rw [show countMainPly (TreeNode.mk d []) = 0 from rfl] at hchain
        rw [List.length_cons] at hchain
        omega
      | c :: cs =>
        have hchain' : rest'.length ≤ countMainPly c + 1 := by
          rw [show countMainPly (TreeNode.mk d (c :: cs)) = countMainPly c + 1 from rfl]
            at hchain
          simpa using hchain
        obtain ⟨old, new, h1, h2, h3, h4, h5, h6, h7, h8, h9, h10, h11⟩ :=
          ih a.best.score (i + 1) c k' hk' hchain'
        refine ⟨old, new, ?_, ?_, ?_, ?_, ?_, ?_, h7, h8, h9, h10, h11⟩
        · rw [List.replicate_succ, exactResolve_zero_cons]
          exact h1
        · rw [show addAnalysisGo g prev i (a :: rest') (TreeNode.mk d (c :: cs)) =
              TreeNode.mk
                { d with
                    score := some a.best.score
                    commentHTML := if a.novelty then "Novelty" else d.commentHTML
                    commentText := if a.novelty then "Novelty" else d.commentText
                    annot := g prev a.best.score (if i % 2 = 0 then Color.w else Color.b) }
                (addAnalysisGo g a.best.score (i + 1) rest' c :: cs) from rfl]
          rw [List.replicate_succ, exactResolve_zero_cons]
          exact h2
        · simpa using h3
        · rw [show (a :: rest')[k' + 1] = rest'[k'] by simp]
          rw [show (a :: rest')[k' + 1 - 1] =
              (if k' = 0 then a else rest'[k' - 1]) by
            match k' with
            | 0 => simp
            | _ + 1 => simp]
          rw [show i + (k' + 1) = i + 1 + k' by omega]
          by_cases hk0 : k' = 0
          · subst hk0
            simpa using h4
          · rw [if_neg hk0] at h4
            rw [if_neg hk0]
            exact h4
        · simpa using h5
        · simpa using h6

/-- C8: applying an analysis sequence of length N to a tree whose mainline
has length ≥ N sets the evaluation and annotation on exactly the first N
mainline nodes (overwriting both comment representations with "Novelty" on
novelty-flagged entries, all other per-node fields kept), where the i-th
annotation classifies the previous ply's evaluation (a 0-centipawn baseline
for the first ply) against this ply's evaluation from the side to move
alternating by parity starting with white; every node off that prefix keeps
its data unchanged. -/
theorem add_analysis_spec (g : Classifier) (analysis : List MoveAnalysis)
    (st : TreeState) (hN : analysis.length ≤ countMainPly st.root) :
    (∀ i (hi : i < analysis.length),
      ∃ old new,
        exactResolve st.root (List.replicate (i + 1) 0) = some old ∧
        exactResolve (addAnalysis g st analysis).root (List.replicate (i + 1) 0) =
          some new ∧
        (TreeNode.data new).score = some analysis[i].best.score ∧
        (TreeNode.data new).annot =
          g (if i = 0 then ⟨.cp, 0⟩ else analysis[i - 1].best.score)
            analysis[i].best.score (if i % 2 = 0 then Color.w else Color.b) ∧
        (TreeNode.data new).commentText =
          (if analysis[i].novelty then "Novelty" else (TreeNode.data old).commentText) ∧
        (TreeNode.data new).commentHTML =
          (if analysis[i].novelty then "Novelty" else (TreeNode.data old).commentHTML) ∧
        (TreeNode.data new).fen = (TreeNode.data old).fen ∧
        (TreeNode.data new).move = (TreeNode.data old).move ∧
        (TreeNode.data new).halfMoves = (TreeNode.data old).halfMoves ∧
        (TreeNode.data new).depth = (TreeNode.data old).depth ∧
        (TreeNode.data new).shapes = (TreeNode.data old).shapes) ∧
    (∀ p : List Nat,
      (p.length = 0 ∨ analysis.length < p.length ∨ p ≠ List.replicate p.length 0) →
      (exactResolve (addAnalysis g st analysis).root p).map TreeNode.data =
        (exactResolve st.root p).map TreeNode.data) := by
  have haroot : (addAnalysis g st analysis).root =
      TreeNode.mk (TreeNode.data st.root)
        (match st.root.children with
         | [] => []
         | c :: cs => addAnalysisGo g ⟨.cp, 0⟩ 0 analysis c :: cs) := rfl
  cases hroot : st.root with
  | mk d ch =>
    rw [hroot] at haroot hN
    simp only [TreeNode.data_mk, TreeNode.children_mk] at haroot
    match ch with
    | [] =>
      have hempty : analysis.length = 0 := by
        rw [show countMainPly (TreeNode.mk d []) = 0 from rfl] at hN
        omega
      constructor
      · intro i hi
        omega
      · intro p _
        rw [haroot]
    | c :: cs =>
      have hchain : analysis.length ≤ countMainPly c + 1 := by
        rw [show countMainPly (TreeNode.mk d (c :: cs)) = countMainPly c + 1 from rfl] at hN
        exact hN
      constructor
      · intro i hi
        obtain ⟨old, new, h1, h2, h3, h4, h5, h6, h7, h8, h9, h10, h11⟩ :=
          addAnalysisGo_touched g analysis ⟨.cp, 0⟩ 0 c i hi hchain
        refine ⟨old, new, ?_, ?_, h3, ?_, h5, h6, h7, h8, h9, h10, h11⟩
        · rw [List.replicate_succ, exactResolve_zero_cons]
          exact h1
        · rw [haroot, List.replicate_succ, exactResolve_zero_cons]
          exact h2
        · rw [show (0 : Nat) + i = i from Nat.zero_add i] at h4
          exact h4
      · intro p hp
        rw [haroot]
        match p with
        | [] => rfl
        | 0 :: p' =>
          rw [exactResolve_zero_cons, exactResolve_zero_cons]
          refine addAnalysisGo_untouched g analysis ⟨.cp, 0⟩ 0 c p' ?_
          rcases hp with h | h | h
          · simp at h
          · right
            rw [List.length_cons] at h
            omega
          · left
            intro hcontra
            refine h ?_
            rw [List.length_cons, List.replicate_succ]
            exact congrArg (List.cons 0) hcontra
        | (j + 1) :: p' =>
          rw [exactResolve_succ_cons, exactResolve_succ_cons,
            exactResolve_cons_data_irrel _ d cs j p']

theorem add_analysis_spec_witness :
    (sampleAnalysis.length ≤ countMainPly sampleState.root) ∧
    ((∀ i (hi : i < sampleAnalysis.length),
      ∃ old new,
        exactResolve sampleState.root (List.replicate (i + 1) 0) = some old ∧
        exactResolve (addAnalysis classifyNone sampleState sampleAnalysis).root
          (List.replicate (i + 1) 0) = some new ∧
        (TreeNode.data new).score = some sampleAnalysis[i].best.score ∧
        (TreeNode.data new).annot =
          classifyNone (if i = 0 then ⟨.cp, 0⟩ else sampleAnalysis[i - 1].best.score)
            sampleAnalysis[i].best.score (if i % 2 = 0 then Color.w else Color.b) ∧
        (TreeNode.data new).commentText =
          (if sampleAnalysis[i].novelty then "Novelty"
           else (TreeNode.data old).commentText) ∧
        (TreeNode.data new).commentHTML =
          (if sampleAnalysis[i].novelty then "Novelty"
           else (TreeNode.data old).commentHTML) ∧
        (TreeNode.data new).fen = (TreeNode.data old).fen ∧
        (TreeNode.data new).move = (TreeNode.data old).move ∧
        (TreeNode.data new).halfMoves = (TreeNode.data old).halfMoves ∧
        (TreeNode.data new).depth = (TreeNode.data old).depth ∧
        (TreeNode.data new).shapes = (TreeNode.data old).shapes) ∧
    (∀ p : List Nat,
      (p.length = 0 ∨ sampleAnalysis.length < p.length ∨ p ≠ List.replicate p.length 0) →
      (exactResolve (addAnalysis classifyNone sampleState sampleAnalysis).root p).map
          TreeNode.data =
        (exactResolve sampleState.root p).map TreeNode.data)) :=
  ⟨by decide, add_analysis_spec classifyNone sampleAnalysis sampleState (by decide)⟩

end EnCroissant
